import Mathlib

/-!
Verification of the Quine-McCluskey term-combination core (QuinMcAlgo.py).

Terms are modelled as `List Char` (Python strings are character sequences).
`combine_terms` follows the source's zip-based scan with a found-difference
flag; `group_by_ones` and the round loop of `minimize` are modelled with
insertion-ordered association lists for Python dicts and `Finset` for Python
sets.
-/

set_option maxHeartbeats 1000000

namespace QuinMc

/-- A term is a sequence of symbols (Python string). -/
abbrev Term := List Char

/-- Population count: `term.count('1')` in the source. -/
def popcount (t : Term) : Nat := t.count '1'

/-- Predicate: every symbol is '0' or '1' (an input minterm). -/
def isBinary (t : Term) : Prop := ∀ c ∈ t, c = '0' ∨ c = '1'

/-- Predicate: every symbol is '0', '1' or '-' (a general term). -/
def alphaOk (t : Term) : Prop := ∀ c ∈ t, c = '0' ∨ c = '1' ∨ c = '-'

instance (t : Term) : Decidable (isBinary t) := by unfold isBinary; infer_instance

instance (t : Term) : Decidable (alphaOk t) := by unfold alphaOk; infer_instance

/-- The scan of `combine_terms`: walk the zipped pairs carrying the
`found_difference` flag; a second difference aborts with `none`. -/
def combineAux : List (Char × Char) → Bool → Option (List Char)
  | [], _ => some []
  | p :: rest, found =>
    if p.1 = p.2 then
      match combineAux rest found with
      | some c => some (p.1 :: c)
      | none => none
    else if found then none
    else
      match combineAux rest true with
      | some c => some ('-' :: c)
      | none => none

/-- `combine_terms` from the source: iterate over `zip(term1, term2)`,
copying equal symbols, replacing the first difference by '-', and
returning `None` on a second difference. -/
def combine_terms (t1 t2 : Term) : Option Term := combineAux (t1.zip t2) false

/-- Number of positions at which the zipped terms differ. -/
def countDiffs (a b : Term) : Nat := ((a.zip b).filter (fun p => p.1 != p.2)).length

/-- `subsumes t m`: every non-'-' position of `t` equals the corresponding
position of `m` (and the lengths agree). -/
def subsumes : Term → Term → Bool
  | [], [] => true
  | u :: us, v :: vs => (u == '-' || u == v) && subsumes us vs
  | _, _ => false

/-! ### Lemmas about `combineAux` and `combine_terms` -/

theorem combineAux_some_true {l : List (Char × Char)} {c : List Char}
    (h : combineAux l true = some c) : c = l.map Prod.fst ∧ ∀ p ∈ l, p.1 = p.2 := by
  induction l generalizing c with
  | nil => simp [combineAux] at h; simp [h]
  | cons p rest ih =>
    by_cases hp : p.1 = p.2
    · simp only [combineAux, if_pos hp] at h
      cases hrec : combineAux rest true with
      | none => rw [hrec] at h; exact absurd h (by simp)
      | some c' =>
        rw [hrec] at h
        obtain ⟨h1, h2⟩ := ih hrec
        simp only [Option.some.injEq] at h
        constructor
        · rw [← h, h1]; simp
        · intro q hq
          rcases List.mem_cons.mp hq with hq | hq
          · rw [hq]; exact hp
          · exact h2 q hq
    · simp [combineAux, if_neg hp] at h

theorem combineAux_all_eq {l : List (Char × Char)} (h : ∀ p ∈ l, p.1 = p.2) (fl : Bool) :
    combineAux l fl = some (l.map Prod.fst) := by
  induction l with
  | nil => simp [combineAux]
  | cons p rest ih =>
    have hp : p.1 = p.2 := h p (List.mem_cons_self p rest)
    have hr : ∀ q ∈ rest, q.1 = q.2 := fun q hq => h q (List.mem_cons_of_mem p hq)
    simp [combineAux, if_pos hp, ih hr]

theorem zip_self_all_eq (a : Term) : ∀ p ∈ a.zip a, p.1 = p.2 := by
  induction a with
  | nil => simp
  | cons x xs ih =>
    intro p hp
    rcases List.mem_cons.mp hp with hp | hp
    · rw [hp]
    · exact ih p hp

/-- Combining a term with itself yields the term back (zero differences). -/
theorem combine_self (a : Term) : combine_terms a a = some a := by
  unfold combine_terms
  rw [combineAux_all_eq (zip_self_all_eq a)]
  congr 1
  exact List.map_fst_zip a a (le_refl _)

theorem eq_of_zip_all_eq {a b : Term} (hlen : a.length = b.length)
    (h : ∀ p ∈ a.zip b, p.1 = p.2) : a = b := by
  induction a generalizing b with
  | nil => cases b with
    | nil => rfl
    | cons y ys => simp at hlen
  | cons x xs ih =>
    cases b with
    | nil => simp at hlen
    | cons y ys =>
      have hxy : x = y := h (x, y) (by simp [List.zip_cons_cons])
      have : xs = ys := by
        apply ih (by simpa using hlen)
        intro p hp
        exact h p (by simp [List.zip_cons_cons, hp])
      rw [hxy, this]

/-- Combining two terms with a single difference at the head of the common
suffix: the difference becomes '-'. -/
theorem combine_one {p q : Term} {x y : Char} (hxy : x ≠ y) :
    combine_terms (p ++ x :: q) (p ++ y :: q) = some (p ++ '-' :: q) := by
  induction p with
  | nil =>
    simp only [List.nil_append]
    unfold combine_terms
    rw [List.zip_cons_cons]
    simp only [combineAux, if_neg hxy, if_neg (by simp : ¬(false = true))]
    rw [combineAux_all_eq (zip_self_all_eq q)]
    simp [List.map_fst_zip q q (le_refl _)]
  | cons z p' ih =>
    simp only [List.cons_append]
    unfold combine_terms at ih ⊢
    rw [List.zip_cons_cons]
    simp [combineAux, ih]

/-- Characterization of a successful combination of equal-length terms:
either the terms are equal and returned unchanged, or they split as a common
prefix, a single differing symbol, and a common suffix, with the difference
replaced by '-'. -/
theorem combine_cases {a b : Term} (hlen : a.length = b.length) {c : Term}
    (h : combine_terms a b = some c) :
    (b = a ∧ c = a) ∨
    ∃ p x y q, a = p ++ x :: q ∧ b = p ++ y :: q ∧ x ≠ y ∧ c = p ++ '-' :: q := by
  induction a generalizing b c with
  | nil =>
    cases b with
    | nil =>
      left
      unfold combine_terms at h
      simp [combineAux] at h
      exact ⟨rfl, h⟩
    | cons y ys => simp at hlen
  | cons x xs ih =>
    cases b with
    | nil => simp at hlen
    | cons y ys =>
      unfold combine_terms at h
      rw [List.zip_cons_cons] at h
      by_cases hxy : x = y
      · simp only [combineAux, if_pos hxy] at h
        cases hrec : combineAux (xs.zip ys) false with
        | none => rw [hrec] at h; exact absurd h (by simp)
        | some c' =>
          rw [hrec] at h
          simp only [Option.some.injEq] at h
          rcases ih (by simpa using hlen) hrec with ⟨hb, hc⟩ | ⟨p, u, v, q, ha, hb, huv, hc⟩
          · left
            constructor
            · rw [hxy, hb]
            · rw [← h, hc]
          · right
            exact ⟨x :: p, u, v, q, by rw [ha, List.cons_append],
              by rw [hxy, hb, List.cons_append], huv, by rw [← h, hc, List.cons_append]⟩
      · simp only [combineAux, if_neg hxy, if_neg (by simp : ¬(false = true))] at h
        cases hrec : combineAux (xs.zip ys) true with
        | none => rw [hrec] at h; exact absurd h (by simp)
        | some c' =>
          rw [hrec] at h
          simp only [Option.some.injEq] at h
          obtain ⟨hc', hall⟩ := combineAux_some_true hrec
          have hxsys : xs = ys := eq_of_zip_all_eq (by simpa using hlen) hall
          right
          refine ⟨[], x, y, xs, by simp, by simp [hxsys], hxy, ?_⟩
          rw [← h, hc']
          simp [List.map_fst_zip xs ys (by simp [hxsys])]

theorem combineAux_length {l : List (Char × Char)} {c : List Char} {fl : Bool}
    (h : combineAux l fl = some c) : c.length = l.length := by
  induction l generalizing c fl with
  | nil => simp [combineAux] at h; simp [← h]
  | cons p rest ih =>
    by_cases hp : p.1 = p.2
    · simp only [combineAux, if_pos hp] at h
      cases hrec : combineAux rest fl with
      | none => rw [hrec] at h; exact absurd h (by simp)
      | some c' =>
        rw [hrec] at h
        simp only [Option.some.injEq] at h
        simp [← h, ih hrec]
    · rcases fl with _ | _
      · simp only [combineAux, if_neg hp, if_neg (by simp : ¬(false = true))] at h
        cases hrec : combineAux rest true with
        | none => rw [hrec] at h; exact absurd h (by simp)
        | some c' =>
          rw [hrec] at h
          simp only [Option.some.injEq] at h
          simp [← h, ih hrec]
      · simp [combineAux, if_neg hp] at h

/-- A successful combination has the length of the zipped common prefix:
the minimum of the two input lengths. -/
theorem combine_length {a b c : Term} (h : combine_terms a b = some c) :
    c.length = min a.length b.length := by
  unfold combine_terms at h
  rw [combineAux_length h]
  exact List.length_zip a b

/-! ### Lemmas about `countDiffs` -/

theorem countDiffs_self (a : Term) : countDiffs a a = 0 := by
  unfold countDiffs
  rw [List.length_eq_zero, List.filter_eq_nil]
  intro p hp
  have := zip_self_all_eq a p hp
  simp [this]

theorem countDiffs_eq_zero {a b : Term} (hlen : a.length = b.length)
    (h : countDiffs a b = 0) : a = b := by
  apply eq_of_zip_all_eq hlen
  intro p hp
  unfold countDiffs at h
  rw [List.length_eq_zero, List.filter_eq_nil] at h
  have := h p hp
  simpa using this

theorem countDiffs_split {p q : Term} {x y : Char} (hp : p.length = p.length) (hxy : x ≠ y) :
    countDiffs (p ++ x :: q) (p ++ y :: q) = 1 := by
  unfold countDiffs
  rw [List.zip_append rfl, List.zip_cons_cons, List.filter_append]
  have h1 : (p.zip p).filter (fun r => r.1 != r.2) = [] := by
    rw [List.filter_eq_nil]
    intro r hr
    simp [zip_self_all_eq p r hr]
  have h2 : (q.zip q).filter (fun r => r.1 != r.2) = [] := by
    rw [List.filter_eq_nil]
    intro r hr
    simp [zip_self_all_eq q r hr]
  rw [h1]
  simp [List.filter_cons, hxy, h2]

/-- A successful combination means the equal-length inputs differ in at most
one position. -/
theorem combine_some_diffs_le {a b c : Term} (hlen : a.length = b.length)
    (h : combine_terms a b = some c) : countDiffs a b ≤ 1 := by
  rcases combine_cases hlen h with ⟨hb, _⟩ | ⟨p, x, y, q, ha, hb, hxy, _⟩
  · rw [hb, countDiffs_self]; omega
  · rw [ha, hb, countDiffs_split rfl hxy]

/-- A successful combination on equal-length terms moves the population
count by at most one in each direction. -/
theorem combine_pop_close {a b c : Term} (hlen : a.length = b.length)
    (h : combine_terms a b = some c) :
    popcount b ≤ popcount a + 1 ∧ popcount a ≤ popcount b + 1 := by
  rcases combine_cases hlen h with ⟨hb, _⟩ | ⟨p, x, y, q, ha, hb, hxy, _⟩
  · rw [hb]; omega
  · rw [ha, hb]
    unfold popcount
    rw [List.count_append, List.count_append, List.count_cons, List.count_cons]
    by_cases hx : x = '1' <;> by_cases hy : y = '1' <;> simp [hx, hy] <;> omega

/-- Population count of the combined term: the position resolved to '-' no
longer counts, the rest is the common part. -/
theorem combine_pop_eq {p q : Term} {x : Char} :
    popcount (p ++ x :: q) = popcount (p ++ q) + (if x = '1' then 1 else 0) := by
  unfold popcount
  rw [List.count_append, List.count_append, List.count_cons]
  by_cases hx : x = '1' <;> simp [hx] <;> omega

/-! ### Lemmas about `subsumes` -/

theorem subsumes_nil : subsumes [] [] = true := rfl

theorem subsumes_cons_iff {u v : Char} {us vs : Term} :
    subsumes (u :: us) (v :: vs) = true ↔ (u = '-' ∨ u = v) ∧ subsumes us vs = true := by
  simp [subsumes, Bool.and_eq_true, Bool.or_eq_true]

theorem subsumes_refl (l : Term) : subsumes l l = true := by
  induction l with
  | nil => rfl
  | cons u us ih => rw [subsumes_cons_iff]; exact ⟨Or.inr rfl, ih⟩

theorem subsumes_length {a b : Term} (h : subsumes a b = true) : a.length = b.length := by
  induction a generalizing b with
  | nil => cases b with
    | nil => rfl
    | cons v vs => simp [subsumes] at h
  | cons u us ih =>
    cases b with
    | nil => simp [subsumes] at h
    | cons v vs =>
      rw [subsumes_cons_iff] at h
      simp [ih h.2]

theorem subsumes_trans {a b c : Term} (hab : subsumes a b = true)
    (hbc : subsumes b c = true) : subsumes a c = true := by
  induction a generalizing b c with
  | nil =>
    cases b with
    | nil => cases c with
      | nil => rfl
      | cons w ws => simp [subsumes] at hbc
    | cons v vs => simp [subsumes] at hab
  | cons u us ih =>
    cases b with
    | nil => simp [subsumes] at hab
    | cons v vs =>
      cases c with
      | nil => simp [subsumes] at hbc
      | cons w ws =>
        rw [subsumes_cons_iff] at hab hbc ⊢
        refine ⟨?_, ih hab.2 hbc.2⟩
        rcases hab.1 with h | h
        · exact Or.inl h
        · rcases hbc.1 with h' | h'
          · exact Or.inl (h.trans h')
          · exact Or.inr (h.trans h')

theorem subsumes_append_of {u v m1 m2 : Term} (h1 : subsumes u m1 = true)
    (h2 : subsumes v m2 = true) : subsumes (u ++ v) (m1 ++ m2) = true := by
  induction u generalizing m1 with
  | nil =>
    cases m1 with
    | nil => simpa using h2
    | cons w ws => simp [subsumes] at h1
  | cons x xs ih =>
    cases m1 with
    | nil => simp [subsumes] at h1
    | cons w ws =>
      rw [subsumes_cons_iff] at h1
      simp only [List.cons_append]
      rw [subsumes_cons_iff]
      exact ⟨h1.1, ih h1.2⟩

theorem subsumes_split {u v m : Term} (h : subsumes (u ++ v) m = true) :
    ∃ m1 m2, m = m1 ++ m2 ∧ m1.length = u.length ∧
      subsumes u m1 = true ∧ subsumes v m2 = true := by
  induction u generalizing m with
  | nil => exact ⟨[], m, by simp, by simp, rfl, by simpa using h⟩
  | cons x xs ih =>
    cases m with
    | nil => simp [subsumes] at h
    | cons w ws =>
      simp only [List.cons_append] at h
      rw [subsumes_cons_iff] at h
      obtain ⟨m1, m2, hm, hl, hs1, hs2⟩ := ih h.2
      exact ⟨w :: m1, m2, by simp [hm], by simp [hl], by rw [subsumes_cons_iff]; exact ⟨h.1, hs1⟩, hs2⟩

/-- The combined term subsumes both of its equal-length inputs. -/
theorem combine_subsumes {a b c : Term} (hlen : a.length = b.length)
    (h : combine_terms a b = some c) : subsumes c a = true ∧ subsumes c b = true := by
  rcases combine_cases hlen h with ⟨hb, hc⟩ | ⟨p, x, y, q, ha, hb, hxy, hc⟩
  · rw [hb, hc]; exact ⟨subsumes_refl _, subsumes_refl _⟩
  · subst ha; subst hb; subst hc
    constructor
    · exact subsumes_append_of (subsumes_refl p)
        (by rw [subsumes_cons_iff]; exact ⟨Or.inl rfl, subsumes_refl q⟩)
    · exact subsumes_append_of (subsumes_refl p)
        (by rw [subsumes_cons_iff]; exact ⟨Or.inl rfl, subsumes_refl q⟩)

/-- A fully specified ('-'-free) term subsumes only itself. -/
theorem subsumes_binary_eq {a b : Term} (ha : isBinary a) (h : subsumes a b = true) :
    a = b := by
  induction a generalizing b with
  | nil => cases b with
    | nil => rfl
    | cons v vs => simp [subsumes] at h
  | cons u us ih =>
    cases b with
    | nil => simp [subsumes] at h
    | cons v vs =>
      rw [subsumes_cons_iff] at h
      have hu : u = '0' ∨ u = '1' := ha u (List.mem_cons_self u us)
      have hne : u ≠ '-' := by rcases hu with h' | h' <;> rw [h'] <;> decide
      have : u = v := by
        rcases h.1 with h' | h'
        · exact absurd h' hne
        · exact h'
      rw [this, ih (fun ch hc => ha ch (List.mem_cons_of_mem u hc)) h.2]

/-- Binary-soundness transfer: if the combination of two equal-length terms
over the {'0','1','-'} alphabet subsumes a fully specified binary string,
then one of the two inputs already subsumes it. -/
theorem combine_sound {t1 t2 c m : Term} (hlen : t1.length = t2.length)
    (h : combine_terms t1 t2 = some c) (h1 : alphaOk t1) (h2 : alphaOk t2)
    (hm : isBinary m) (hs : subsumes c m = true) :
    subsumes t1 m = true ∨ subsumes t2 m = true := by
  rcases combine_cases hlen h with ⟨hb, hc⟩ | ⟨p, x, y, q, ha, hb, hxy, hc⟩
  · subst hb; subst hc; exact Or.inl hs
  · subst ha; subst hb; subst hc
    obtain ⟨m1, m2, hm12, hl1, hsp, hsq⟩ := subsumes_split hs
    cases m2 with
    | nil => simp [subsumes] at hsq
    | cons z mq =>
      rw [subsumes_cons_iff] at hsq
      subst hm12
      by_cases hx : x = '-' ∨ x = z
      · left
        exact subsumes_append_of hsp (by rw [subsumes_cons_iff]; exact ⟨hx, hsq.2⟩)
      · right
        push_neg at hx
        have hxa : x = '0' ∨ x = '1' ∨ x = '-' := h1 x (by simp)
        have hya : y = '0' ∨ y = '1' ∨ y = '-' := h2 y (by simp)
        have hza : z = '0' ∨ z = '1' := hm z (by simp)
        have hy : y = '-' ∨ y = z := by
          rcases hxa with hx' | hx' | hx'
          · rcases hza with hz' | hz'
            · exact absurd (hx'.trans hz'.symm) hx.2
            · rcases hya with hy' | hy' | hy'
              · exact absurd (hy'.trans hx'.symm) (Ne.symm hxy)
              · exact Or.inr (hy'.trans hz'.symm)
              · exact Or.inl hy'
          · rcases hza with hz' | hz'
            · rcases hya with hy' | hy' | hy'
              · exact Or.inr (hy'.trans hz'.symm)
              · exact absurd (hy'.trans hx'.symm) (Ne.symm hxy)
              · exact Or.inl hy'
            · exact absurd (hx'.trans hz'.symm) hx.2
          · exact absurd hx' hx.1
        exact subsumes_append_of hsp (by rw [subsumes_cons_iff]; exact ⟨hy, hsq.2⟩)

/-! ### Insertion-ordered association lists modelling Python dicts -/

/-- A Python dict from population count to list of terms, in insertion order. -/
abbrev Groups := List (Nat × List Term)

/-- Dict lookup `groups[k]` (first entry with the key; `[]` when absent). -/
def getGroup : Groups → Nat → List Term
  | [], _ => []
  | (k', v) :: rest, k => if k' = k then v else getGroup rest k

/-- `groups.setdefault(k, []).append(t)`: append to the entry of `k`,
creating it at the end in insertion order when absent. -/
def addToGroup : Groups → Nat → Term → Groups
  | [], k, t => [(k, [t])]
  | (k', v) :: rest, k, t =>
    if k' = k then (k', v ++ [t]) :: rest else (k', v) :: addToGroup rest k t

/-- The dict's key list, in insertion order. -/
def keysOf (gs : Groups) : List Nat := gs.map Prod.fst

/-- All terms stored in the dict (`itertools.chain(*groups.values())`). -/
def termsOf (gs : Groups) : List Term := (gs.map Prod.snd).join

theorem keysOf_cons (k : Nat) (v : List Term) (rest : Groups) :
    keysOf ((k, v) :: rest) = k :: keysOf rest := rfl

theorem termsOf_cons (k : Nat) (v : List Term) (rest : Groups) :
    termsOf ((k, v) :: rest) = v ++ termsOf rest := by
  simp [termsOf]

theorem keysOf_addToGroup (gs : Groups) (k : Nat) (t : Term) :
    keysOf (addToGroup gs k t) = if k ∈ keysOf gs then keysOf gs else keysOf gs ++ [k] := by
  induction gs with
  | nil => simp [keysOf, addToGroup]
  | cons p rest ih =>
    obtain ⟨k', v⟩ := p
    by_cases hk : k' = k
    · subst hk
      simp [addToGroup, keysOf]
    · simp only [addToGroup, if_neg hk, keysOf, List.map_cons] at ih ⊢
      rw [ih]
      by_cases hmem : k ∈ List.map Prod.fst rest
      · simp [hmem, Ne.symm hk]
      · simp [hmem, Ne.symm hk]

theorem keysOf_addToGroup_nodup {gs : Groups} (h : (keysOf gs).Nodup) (k : Nat) (t : Term) :
    (keysOf (addToGroup gs k t)).Nodup := by
  rw [keysOf_addToGroup]
  by_cases hmem : k ∈ keysOf gs
  · simpa [hmem] using h
  · rw [if_neg hmem, List.nodup_append]
    refine ⟨h, List.nodup_singleton k, ?_⟩
    rw [List.disjoint_left]
    intro a ha hak
    rw [List.mem_singleton] at hak
    exact hmem (hak ▸ ha)

theorem mem_getGroup_addToGroup (gs : Groups) (k k' : Nat) (t t' : Term) :
    t' ∈ getGroup (addToGroup gs k t) k' ↔
      t' ∈ getGroup gs k' ∨ (k = k' ∧ t' = t) := by
  induction gs with
  | nil =>
    by_cases hk : k = k'
    · subst hk; simp [addToGroup, getGroup]
    · simp [addToGroup, getGroup, hk]
  | cons p rest ih =>
    obtain ⟨k0, v⟩ := p
    by_cases h0 : k0 = k
    · subst h0
      by_cases hk : k0 = k'
      · subst hk; simp [addToGroup, getGroup]
      · simp [addToGroup, getGroup, hk]
    · by_cases hk : k0 = k'
      · subst hk
        simp only [addToGroup, if_neg h0, getGroup, if_pos rfl]
        constructor
        · exact Or.inl
        · rintro (h | ⟨hkk, ht⟩)
          · exact h
          · exact absurd hkk.symm h0
      · simp only [addToGroup, if_neg h0, getGroup, if_neg hk]
        exact ih

theorem vals_ne_addToGroup {gs : Groups} (h : ∀ p ∈ gs, p.2 ≠ []) (k : Nat) (t : Term) :
    ∀ p ∈ addToGroup gs k t, p.2 ≠ [] := by
  induction gs with
  | nil => simp [addToGroup]
  | cons q rest ih =>
    obtain ⟨k0, v⟩ := q
    by_cases h0 : k0 = k
    · subst h0
      simp only [addToGroup, if_pos rfl]
      intro p hp
      rcases List.mem_cons.mp hp with hp | hp
      · rw [hp]; simp
      · exact h p (List.mem_cons_of_mem _ hp)
    · simp only [addToGroup, if_neg h0]
      intro p hp
      rcases List.mem_cons.mp hp with hp | hp
      · rw [hp]; exact h (k0, v) (List.mem_cons_self _ _)
      · exact ih (fun q hq => h q (List.mem_cons_of_mem _ hq)) p hp

theorem mem_termsOf_addToGroup (gs : Groups) (k : Nat) (t t' : Term) :
    t' ∈ termsOf (addToGroup gs k t) ↔ t' ∈ termsOf gs ∨ t' = t := by
  induction gs with
  | nil => simp [addToGroup, termsOf]
  | cons p rest ih =>
    obtain ⟨k0, v⟩ := p
    by_cases h0 : k0 = k
    · subst h0
      rw [addToGroup, if_pos rfl, termsOf_cons, termsOf_cons]
      simp only [List.mem_append, List.mem_singleton]
      tauto
    · rw [addToGroup, if_neg h0, termsOf_cons, termsOf_cons]
      simp only [List.mem_append, ih]
      tauto

theorem mem_termsOf_of_getGroup {gs : Groups} {k : Nat} {t : Term}
    (h : t ∈ getGroup gs k) : t ∈ termsOf gs := by
  induction gs with
  | nil => simp [getGroup] at h
  | cons p rest ih =>
    obtain ⟨k0, v⟩ := p
    rw [termsOf_cons, List.mem_append]
    by_cases h0 : k0 = k
    · rw [getGroup, if_pos h0] at h
      exact Or.inl h
    · rw [getGroup, if_neg h0] at h
      exact Or.inr (ih h)

theorem getGroup_eq_nil_of_not_mem {gs : Groups} {k : Nat} (h : k ∉ keysOf gs) :
    getGroup gs k = [] := by
  induction gs with
  | nil => rfl
  | cons p rest ih =>
    obtain ⟨k0, v⟩ := p
    simp only [keysOf, List.map_cons, List.mem_cons] at h
    push_neg at h
    rw [getGroup, if_neg (Ne.symm h.1)]
    exact ih (by simpa [keysOf] using h.2)

theorem mem_keysOf_of_getGroup {gs : Groups} {k : Nat} {t : Term}
    (h : t ∈ getGroup gs k) : k ∈ keysOf gs := by
  by_contra hmem
  rw [getGroup_eq_nil_of_not_mem hmem] at h
  simp at h

theorem getGroup_ne_nil_of_mem_keys {gs : Groups} (hv : ∀ p ∈ gs, p.2 ≠ [])
    {k : Nat} (h : k ∈ keysOf gs) : getGroup gs k ≠ [] := by
  induction gs with
  | nil => simp [keysOf] at h
  | cons p rest ih =>
    obtain ⟨k0, v⟩ := p
    by_cases h0 : k0 = k
    · rw [getGroup, if_pos h0]
      exact hv (k0, v) (List.mem_cons_self _ _)
    · rw [getGroup, if_neg h0]
      simp only [keysOf, List.map_cons, List.mem_cons] at h
      rcases h with h | h
      · exact absurd h.symm h0
      · exact ih (fun q hq => hv q (List.mem_cons_of_mem _ hq)) h

theorem mem_termsOf_exists {gs : Groups} (hnd : (keysOf gs).Nodup) {t : Term}
    (h : t ∈ termsOf gs) : ∃ k, t ∈ getGroup gs k := by
  induction gs with
  | nil => simp [termsOf] at h
  | cons p rest ih =>
    obtain ⟨k0, v⟩ := p
    rw [keysOf_cons, List.nodup_cons] at hnd
    rw [termsOf_cons, List.mem_append] at h
    rcases h with h | h
    · exact ⟨k0, by rw [getGroup, if_pos rfl]; exact h⟩
    · obtain ⟨k, hk⟩ := ih hnd.2 h
      have hk0 : k0 ≠ k := fun hkk => hnd.1 (hkk ▸ mem_keysOf_of_getGroup hk)
      exact ⟨k, by rw [getGroup, if_neg hk0]; exact hk⟩

/-- Under unique keys, membership in the stored terms is membership in some
key's bucket. -/
theorem mem_termsOf_iff {gs : Groups} (hnd : (keysOf gs).Nodup) (t : Term) :
    t ∈ termsOf gs ↔ ∃ k, t ∈ getGroup gs k := by
  constructor
  · exact mem_termsOf_exists hnd
  · rintro ⟨k, hk⟩
    exact mem_termsOf_of_getGroup hk

/-! ### `group_by_ones` -/

/-- `group_by_ones` from the source: bucket terms by their count of '1's,
in iteration order, via `setdefault`. -/
def group_by_ones (terms : List Term) : Groups :=
  terms.foldl (fun gs t => addToGroup gs (popcount t) t) []

theorem group_by_ones_fold_getGroup (l : List Term) (gs : Groups) (k : Nat) (t : Term) :
    t ∈ getGroup (l.foldl (fun gs t => addToGroup gs (popcount t) t) gs) k ↔
      t ∈ getGroup gs k ∨ (t ∈ l ∧ popcount t = k) := by
  induction l generalizing gs with
  | nil => simp
  | cons x xs ih =>
    rw [List.foldl_cons, ih]
    rw [mem_getGroup_addToGroup]
    constructor
    · rintro ((h | ⟨hk, ht⟩) | ⟨hmem, hpop⟩)
      · exact Or.inl h
      · exact Or.inr ⟨by simp [ht], by rw [ht]; exact hk⟩
      · exact Or.inr ⟨List.mem_cons_of_mem x hmem, hpop⟩
    · rintro (h | ⟨hmem, hpop⟩)
      · exact Or.inl (Or.inl h)
      · rcases List.mem_cons.mp hmem with hx | hx
        · exact Or.inl (Or.inr ⟨hx ▸ hpop, hx⟩)
        · exact Or.inr ⟨hx, hpop⟩

theorem mem_getGroup_group_by_ones (l : List Term) (k : Nat) (t : Term) :
    t ∈ getGroup (group_by_ones l) k ↔ t ∈ l ∧ popcount t = k := by
  rw [group_by_ones, group_by_ones_fold_getGroup]
  simp [getGroup]

theorem group_by_ones_fold_termsOf (l : List Term) (gs : Groups) (t : Term) :
    t ∈ termsOf (l.foldl (fun gs t => addToGroup gs (popcount t) t) gs) ↔
      t ∈ termsOf gs ∨ t ∈ l := by
  induction l generalizing gs with
  | nil => simp
  | cons x xs ih =>
    rw [List.foldl_cons, ih, mem_termsOf_addToGroup]
    constructor
    · rintro ((h | h) | h)
      · exact Or.inl h
      · exact Or.inr (by simp [h])
      · exact Or.inr (List.mem_cons_of_mem x h)
    · rintro (h | h)
      · exact Or.inl (Or.inl h)
      · rcases List.mem_cons.mp h with hx | hx
        · exact Or.inl (Or.inr hx)
        · exact Or.inr hx

theorem mem_termsOf_group_by_ones (l : List Term) (t : Term) :
    t ∈ termsOf (group_by_ones l) ↔ t ∈ l := by
  rw [group_by_ones, group_by_ones_fold_termsOf]
  simp [termsOf]

theorem group_by_ones_nodup (l : List Term) : (keysOf (group_by_ones l)).Nodup := by
  rw [group_by_ones]
  have : ∀ gs : Groups, (keysOf gs).Nodup →
      (keysOf (l.foldl (fun gs t => addToGroup gs (popcount t) t) gs)).Nodup := by
    induction l with
    | nil => intro gs h; simpa using h
    | cons x xs ih =>
      intro gs h
      rw [List.foldl_cons]
      exact ih _ (keysOf_addToGroup_nodup h _ _)
  exact this [] (by simp [keysOf])

theorem group_by_ones_vals_ne (l : List Term) : ∀ p ∈ group_by_ones l, p.2 ≠ [] := by
  rw [group_by_ones]
  have : ∀ gs : Groups, (∀ p ∈ gs, p.2 ≠ []) →
      ∀ p ∈ l.foldl (fun gs t => addToGroup gs (popcount t) t) gs, p.2 ≠ [] := by
    induction l with
    | nil => intro gs h; simpa using h
    | cons x xs ih =>
      intro gs h
      rw [List.foldl_cons]
      exact ih _ (vals_ne_addToGroup h _ _)
  exact this [] (by simp)

theorem mem_keysOf_group_by_ones (l : List Term) (k : Nat) :
    k ∈ keysOf (group_by_ones l) ↔ ∃ t ∈ l, popcount t = k := by
  constructor
  · intro h
    have hne := getGroup_ne_nil_of_mem_keys (group_by_ones_vals_ne l) h
    obtain ⟨t, ht⟩ := List.exists_mem_of_ne_nil _ hne
    obtain ⟨hmem, hpop⟩ := (mem_getGroup_group_by_ones l k t).mp ht
    exact ⟨t, hmem, hpop⟩
  · rintro ⟨t, hmem, hpop⟩
    exact mem_keysOf_of_getGroup ((mem_getGroup_group_by_ones l k t).mpr ⟨hmem, hpop⟩)

/-! ### Sorting the keys (Python `sorted(groups.keys())`) -/

/-- Insert a number into an ascending list, keeping it ascending. -/
def insertKey (n : Nat) : List Nat → List Nat
  | [] => [n]
  | m :: rest => if n ≤ m then n :: m :: rest else m :: insertKey n rest

/-- Ascending sort of the key list. -/
def sortKeys (l : List Nat) : List Nat := l.foldr insertKey []

theorem insertKey_perm (n : Nat) (l : List Nat) : List.Perm (insertKey n l) (n :: l) := by
  induction l with
  | nil => rfl
  | cons m rest ih =>
    rw [insertKey]
    by_cases h : n ≤ m
    · rw [if_pos h]
    · rw [if_neg h]
      exact List.Perm.trans (ih.cons m) (List.Perm.swap n m rest)

theorem sortKeys_perm (l : List Nat) : List.Perm (sortKeys l) l := by
  induction l with
  | nil => rfl
  | cons m rest ih =>
    rw [sortKeys, List.foldr_cons]
    exact List.Perm.trans (insertKey_perm m _) (ih.cons m)

theorem insertKey_sorted (n : Nat) {l : List Nat} (h : l.Sorted (· ≤ ·)) :
    (insertKey n l).Sorted (· ≤ ·) := by
  induction l with
  | nil => simp [insertKey]
  | cons m rest ih =>
    rw [List.sorted_cons] at h
    rw [insertKey]
    by_cases hnm : n ≤ m
    · rw [if_pos hnm, List.sorted_cons]
      refine ⟨?_, List.sorted_cons.mpr h⟩
      intro b hb
      rcases List.mem_cons.mp hb with hb | hb
      · rw [hb]; exact hnm
      · exact le_trans hnm (h.1 b hb)
    · rw [if_neg hnm, List.sorted_cons]
      refine ⟨?_, ih h.2⟩
      intro b hb
      have := (insertKey_perm n rest).mem_iff.mp hb
      rcases List.mem_cons.mp this with hb' | hb'
      · rw [hb']; omega
      · exact h.1 b hb'

theorem sortKeys_sorted (l : List Nat) : (sortKeys l).Sorted (· ≤ ·) := by
  induction l with
  | nil => simp [sortKeys]
  | cons m rest ih =>
    rw [sortKeys, List.foldr_cons]
    exact insertKey_sorted m ih

theorem pairwise_zip_tail {r : Nat → Nat → Prop} {l : List Nat} (h : l.Pairwise r) :
    ∀ p ∈ l.zip l.tail, r p.1 p.2 := by
  induction l with
  | nil => simp
  | cons a rest ih =>
    cases rest with
    | nil => simp
    | cons b rest' =>
      intro p hp
      rw [List.tail_cons, List.zip_cons_cons] at hp
      rcases List.mem_cons.mp hp with hp | hp
      · rw [hp]
        exact (List.pairwise_cons.mp h).1 b (List.mem_cons_self b rest')
      · exact ih (List.pairwise_cons.mp h).2 p hp

/-- Consecutive entries of the sorted duplicate-free key list are strictly
increasing. -/
theorem sortKeys_zip_lt {l : List Nat} (hnd : l.Nodup) :
    ∀ p ∈ (sortKeys l).zip (sortKeys l).tail, p.1 < p.2 := by
  have hsorted : (sortKeys l).Sorted (· ≤ ·) := sortKeys_sorted l
  have hnd' : (sortKeys l).Nodup := (sortKeys_perm l).nodup_iff.mpr hnd
  have hpw : (sortKeys l).Pairwise (· < ·) := by
    have := List.Pairwise.and hsorted hnd'
    exact this.imp (fun h => lt_of_le_of_ne h.1 h.2)
  exact pairwise_zip_tail hpw

/-! ### The round loop of `minimize` -/

/-- One combination attempt inside the triple loop: on a truthy combined
string (non-`None` and non-empty, Python's `if combined:`), bucket it under
the lower group key and mark both inputs used. -/
def combineStep (g1 : Nat) (t1 t2 : Term) (acc : Groups × Finset Term) :
    Groups × Finset Term :=
  match combine_terms t1 t2 with
  | some c => if c.isEmpty then acc else (addToGroup acc.1 g1 c, insert t1 (insert t2 acc.2))
  | none => acc

/-- `for term2 in groups[g2]`. -/
def innerLoop (g1 : Nat) (t1 : Term) (ts2 : List Term) (acc : Groups × Finset Term) :
    Groups × Finset Term :=
  ts2.foldl (fun a t2 => combineStep g1 t1 t2 a) acc

/-- `for term1 in groups[g1]`. -/
def pairLoop (g1 : Nat) (ts1 ts2 : List Term) (acc : Groups × Finset Term) :
    Groups × Finset Term :=
  ts1.foldl (fun a t1 => innerLoop g1 t1 ts2 a) acc

/-- `zip(group_keys, group_keys[1:])` over the ascending key list. -/
def pairsOf (gs : Groups) : List (Nat × Nat) :=
  let ks := sortKeys (keysOf gs)
  ks.zip ks.tail

/-- One round of the `while groups:` loop: the adjacent-key pair loop,
accumulating `next_groups` and `used` from scratch. -/
def roundFold (gs : Groups) : Groups × Finset Term :=
  (pairsOf gs).foldl (fun a p => pairLoop p.1 (getGroup gs p.1) (getGroup gs p.2) a) ([], ∅)

/-- The loop state of `minimize`: the working groups dict, the `unchecked`
set and the `checked` set. -/
structure MinState where
  groups : Groups
  unchecked : Finset Term
  checked : Finset Term

/-- The body of the `while groups:` loop: run the round, move unused terms
into `checked`, and carry the new generation forward. -/
def step (s : MinState) : MinState :=
  { groups := (roundFold s.groups).1
  , unchecked := (termsOf (roundFold s.groups).1).toFinset
  , checked := s.checked ∪ (s.unchecked \ (roundFold s.groups).2) }

/-- The state on entry to the loop. -/
def initState (minterms : List Term) : MinState :=
  { groups := group_by_ones minterms
  , unchecked := minterms.toFinset
  , checked := ∅ }

/-- The `while groups:` loop, with enough fuel (the fuel is shown sufficient
by `minimizeLoop_groups_nil`: the number of keys strictly decreases). -/
def minimizeLoop : Nat → MinState → MinState
  | 0, s => s
  | n + 1, s => if s.groups.isEmpty then s else minimizeLoop n (step s)

/-- `minimize` from the source: the returned prime-implicant collection,
as a set (the Python function returns `list(prime_implicants)` in
unspecified set-iteration order). -/
def minimize (minterms : List Term) : Finset Term :=
  (minimizeLoop (group_by_ones minterms).length (initState minterms)).checked

/-- Number of executed rounds of the loop, for a given fuel. -/
def roundCount : Nat → MinState → Nat
  | 0, _ => 0
  | n + 1, s => if s.groups.isEmpty then 0 else roundCount n (step s) + 1

example : minimize [['0','0','0','1'], ['0','0','1','1'], ['0','1','1','1']] =
    {['0','0','-','1'], ['0','-','1','1']} := by decide

example : minimize [['0','0','0','0']] = {['0','0','0','0']} := by decide

example : minimize [] = ∅ := by decide

example : minimize [['1','0','1','0'], ['1','0','1','1']] = {['1','0','1','-']} := by decide

/-! ### Characterization of one round -/

/-- Python's `if combined:` truthiness: a non-`None`, non-empty string. -/
def truthyP (t1 t2 : Term) : Prop := ∃ c, combine_terms t1 t2 = some c ∧ c ≠ []

theorem combineStep_of_none {g1 : Nat} {t1 t2 : Term} {acc : Groups × Finset Term}
    (hc : combine_terms t1 t2 = none) : combineStep g1 t1 t2 acc = acc := by
  simp [combineStep, hc]

theorem combineStep_of_empty {g1 : Nat} {t1 t2 : Term} {acc : Groups × Finset Term}
    (hc : combine_terms t1 t2 = some []) : combineStep g1 t1 t2 acc = acc := by
  simp [combineStep, hc]

theorem combineStep_of_some {g1 : Nat} {t1 t2 : Term} {acc : Groups × Finset Term} {c : Term}
    (hc : combine_terms t1 t2 = some c) (hne : c ≠ []) :
    combineStep g1 t1 t2 acc = (addToGroup acc.1 g1 c, insert t1 (insert t2 acc.2)) := by
  have hee : c.isEmpty = false := by
    cases c with
    | nil => exact absurd rfl hne
    | cons x xs => rfl
  simp [combineStep, hc, hee]

theorem not_truthyP_of_none {t1 t2 : Term} (hc : combine_terms t1 t2 = none) :
    ¬truthyP t1 t2 := by
  rintro ⟨c, hcc, _⟩
  rw [hc] at hcc
  exact absurd hcc (by simp)

theorem not_truthyP_of_empty {t1 t2 : Term} (hc : combine_terms t1 t2 = some []) :
    ¬truthyP t1 t2 := by
  rintro ⟨c, hcc, hne⟩
  rw [hc] at hcc
  simp only [Option.some.injEq] at hcc
  exact absurd hcc.symm hne

theorem combineStep_used (g1 : Nat) (t1 t2 : Term) (acc : Groups × Finset Term) (u : Term) :
    u ∈ (combineStep g1 t1 t2 acc).2 ↔
      u ∈ acc.2 ∨ (truthyP t1 t2 ∧ (u = t1 ∨ u = t2)) := by
  cases hc : combine_terms t1 t2 with
  | none =>
    rw [combineStep_of_none hc]
    have := not_truthyP_of_none hc
    tauto
  | some c =>
    by_cases he : c = []
    · subst he
      rw [combineStep_of_empty hc]
      have := not_truthyP_of_empty hc
      tauto
    · rw [combineStep_of_some hc he]
      have ht : truthyP t1 t2 := ⟨c, hc, he⟩
      simp only [Finset.mem_insert]
      tauto

theorem combineStep_groups (g1 : Nat) (t1 t2 : Term) (acc : Groups × Finset Term)
    (k : Nat) (c : Term) :
    c ∈ getGroup (combineStep g1 t1 t2 acc).1 k ↔
      c ∈ getGroup acc.1 k ∨ (k = g1 ∧ combine_terms t1 t2 = some c ∧ c ≠ []) := by
  cases hc : combine_terms t1 t2 with
  | none =>
    rw [combineStep_of_none hc]
    constructor
    · exact Or.inl
    · rintro (h | ⟨_, hcc, _⟩)
      · exact h
      · exact absurd hcc (by simp)
  | some c' =>
    by_cases he : c' = []
    · subst he
      rw [combineStep_of_empty hc]
      constructor
      · exact Or.inl
      · rintro (h | ⟨_, hcc, hne⟩)
        · exact h
        · simp only [Option.some.injEq] at hcc
          exact absurd hcc.symm hne
    · rw [combineStep_of_some hc he]
      simp only
      rw [mem_getGroup_addToGroup]
      constructor
      · rintro (h | ⟨hk, hcc⟩)
        · exact Or.inl h
        · exact Or.inr ⟨hk.symm, by rw [hcc], by rw [hcc]; exact he⟩
      · rintro (h | ⟨hk, hcc, hne⟩)
        · exact Or.inl h
        · simp only [Option.some.injEq] at hcc
          exact Or.inr ⟨hk.symm, hcc.symm⟩

theorem combineStep_keys (g1 : Nat) (t1 t2 : Term) (acc : Groups × Finset Term) :
    ∀ k ∈ keysOf (combineStep g1 t1 t2 acc).1, k ∈ keysOf acc.1 ∨ k = g1 := by
  intro k hk
  cases hc : combine_terms t1 t2 with
  | none => rw [combineStep_of_none hc] at hk; exact Or.inl hk
  | some c =>
    by_cases he : c = []
    · subst he
      rw [combineStep_of_empty hc] at hk
      exact Or.inl hk
    · rw [combineStep_of_some hc he] at hk
      simp only at hk
      rw [keysOf_addToGroup] at hk
      by_cases hmem : g1 ∈ keysOf acc.1
      · rw [if_pos hmem] at hk; exact Or.inl hk
      · rw [if_neg hmem] at hk
        rcases List.mem_append.mp hk with h | h
        · exact Or.inl h
        · exact Or.inr (List.mem_singleton.mp h)

theorem combineStep_nodup (g1 : Nat) (t1 t2 : Term) (acc : Groups × Finset Term)
    (h : (keysOf acc.1).Nodup) : (keysOf (combineStep g1 t1 t2 acc).1).Nodup := by
  cases hc : combine_terms t1 t2 with
  | none => rw [combineStep_of_none hc]; exact h
  | some c =>
    by_cases he : c = []
    · subst he; rw [combineStep_of_empty hc]; exact h
    · rw [combineStep_of_some hc he]
      exact keysOf_addToGroup_nodup h _ _

theorem combineStep_vals_ne (g1 : Nat) (t1 t2 : Term) (acc : Groups × Finset Term)
    (h : ∀ p ∈ acc.1, p.2 ≠ []) : ∀ p ∈ (combineStep g1 t1 t2 acc).1, p.2 ≠ [] := by
  cases hc : combine_terms t1 t2 with
  | none => rw [combineStep_of_none hc]; exact h
  | some c =>
    by_cases he : c = []
    · subst he; rw [combineStep_of_empty hc]; exact h
    · rw [combineStep_of_some hc he]
      exact vals_ne_addToGroup h _ _

/-! #### `innerLoop` characterization -/

theorem innerLoop_used (g1 : Nat) (t1 : Term) (ts2 : List Term)
    (acc : Groups × Finset Term) (u : Term) :
    u ∈ (innerLoop g1 t1 ts2 acc).2 ↔
      u ∈ acc.2 ∨ ∃ t2 ∈ ts2, truthyP t1 t2 ∧ (u = t1 ∨ u = t2) := by
  induction ts2 generalizing acc with
  | nil => simp [innerLoop]
  | cons t2 rest ih =>
    rw [innerLoop, List.foldl_cons]
    rw [show (List.foldl (fun a t2 => combineStep g1 t1 t2 a) (combineStep g1 t1 t2 acc) rest) =
      innerLoop g1 t1 rest (combineStep g1 t1 t2 acc) from rfl]
    rw [ih, combineStep_used]
    constructor
    · rintro ((h | ⟨ht, hu⟩) | ⟨t2', hmem, ht, hu⟩)
      · exact Or.inl h
      · exact Or.inr ⟨t2, List.mem_cons_self _ _, ht, hu⟩
      · exact Or.inr ⟨t2', List.mem_cons_of_mem _ hmem, ht, hu⟩
    · rintro (h | ⟨t2', hmem, ht, hu⟩)
      · exact Or.inl (Or.inl h)
      · rcases List.mem_cons.mp hmem with hm | hm
        · subst hm
          exact Or.inl (Or.inr ⟨ht, hu⟩)
        · exact Or.inr ⟨t2', hm, ht, hu⟩

theorem innerLoop_groups (g1 : Nat) (t1 : Term) (ts2 : List Term)
    (acc : Groups × Finset Term) (k : Nat) (c : Term) :
    c ∈ getGroup (innerLoop g1 t1 ts2 acc).1 k ↔
      c ∈ getGroup acc.1 k ∨
        (k = g1 ∧ ∃ t2 ∈ ts2, combine_terms t1 t2 = some c ∧ c ≠ []) := by
  induction ts2 generalizing acc with
  | nil => simp [innerLoop]
  | cons t2 rest ih =>
    rw [innerLoop, List.foldl_cons]
    rw [show (List.foldl (fun a t2 => combineStep g1 t1 t2 a) (combineStep g1 t1 t2 acc) rest) =
      innerLoop g1 t1 rest (combineStep g1 t1 t2 acc) from rfl]
    rw [ih, combineStep_groups]
    constructor
    · rintro ((h | ⟨hk, hc, hne⟩) | ⟨hk, t2', hmem, hc, hne⟩)
      · exact Or.inl h
      · exact Or.inr ⟨hk, t2, List.mem_cons_self _ _, hc, hne⟩
      · exact Or.inr ⟨hk, t2', List.mem_cons_of_mem _ hmem, hc, hne⟩
    · rintro (h | ⟨hk, t2', hmem, hc, hne⟩)
      · exact Or.inl (Or.inl h)
      · rcases List.mem_cons.mp hmem with hm | hm
        · subst hm
          exact Or.inl (Or.inr ⟨hk, hc, hne⟩)
        · exact Or.inr ⟨hk, t2', hm, hc, hne⟩

theorem innerLoop_keys (g1 : Nat) (t1 : Term) (ts2 : List Term)
    (acc : Groups × Finset Term) :
    ∀ k ∈ keysOf (innerLoop g1 t1 ts2 acc).1, k ∈ keysOf acc.1 ∨ k = g1 := by
  induction ts2 generalizing acc with
  | nil => intro k hk; exact Or.inl hk
  | cons t2 rest ih =>
    intro k hk
    rw [innerLoop, List.foldl_cons] at hk
    rcases ih (combineStep g1 t1 t2 acc) k hk with h | h
    · exact combineStep_keys g1 t1 t2 acc k h
    · exact Or.inr h

theorem innerLoop_nodup (g1 : Nat) (t1 : Term) (ts2 : List Term)
    (acc : Groups × Finset Term) (h : (keysOf acc.1).Nodup) :
    (keysOf (innerLoop g1 t1 ts2 acc).1).Nodup := by
  induction ts2 generalizing acc with
  | nil => exact h
  | cons t2 rest ih =>
    rw [innerLoop, List.foldl_cons]
    exact ih _ (combineStep_nodup g1 t1 t2 acc h)

theorem innerLoop_vals_ne (g1 : Nat) (t1 : Term) (ts2 : List Term)
    (acc : Groups × Finset Term) (h : ∀ p ∈ acc.1, p.2 ≠ []) :
    ∀ p ∈ (innerLoop g1 t1 ts2 acc).1, p.2 ≠ [] := by
  induction ts2 generalizing acc with
  | nil => exact h
  | cons t2 rest ih =>
    rw [innerLoop, List.foldl_cons]
    exact ih _ (combineStep_vals_ne g1 t1 t2 acc h)

/-! #### `pairLoop` characterization -/

theorem pairLoop_used (g1 : Nat) (ts1 ts2 : List Term)
    (acc : Groups × Finset Term) (u : Term) :
    u ∈ (pairLoop g1 ts1 ts2 acc).2 ↔
      u ∈ acc.2 ∨ ∃ t1 ∈ ts1, ∃ t2 ∈ ts2, truthyP t1 t2 ∧ (u = t1 ∨ u = t2) := by
  induction ts1 generalizing acc with
  | nil => simp [pairLoop]
  | cons t1 rest ih =>
    rw [pairLoop, List.foldl_cons]
    rw [show (List.foldl (fun a t1 => innerLoop g1 t1 ts2 a) (innerLoop g1 t1 ts2 acc) rest) =
      pairLoop g1 rest ts2 (innerLoop g1 t1 ts2 acc) from rfl]
    rw [ih, innerLoop_used]
    constructor
    · rintro ((h | ⟨t2, hm2, ht, hu⟩) | ⟨t1', hm1, t2, hm2, ht, hu⟩)
      · exact Or.inl h
      · exact Or.inr ⟨t1, List.mem_cons_self _ _, t2, hm2, ht, hu⟩
      · exact Or.inr ⟨t1', List.mem_cons_of_mem _ hm1, t2, hm2, ht, hu⟩
    · rintro (h | ⟨t1', hm1, t2, hm2, ht, hu⟩)
      · exact Or.inl (Or.inl h)
      · rcases List.mem_cons.mp hm1 with hm | hm
        · subst hm
          exact Or.inl (Or.inr ⟨t2, hm2, ht, hu⟩)
        · exact Or.inr ⟨t1', hm, t2, hm2, ht, hu⟩

theorem pairLoop_groups (g1 : Nat) (ts1 ts2 : List Term)
    (acc : Groups × Finset Term) (k : Nat) (c : Term) :
    c ∈ getGroup (pairLoop g1 ts1 ts2 acc).1 k ↔
      c ∈ getGroup acc.1 k ∨
        (k = g1 ∧ ∃ t1 ∈ ts1, ∃ t2 ∈ ts2, combine_terms t1 t2 = some c ∧ c ≠ []) := by
  induction ts1 generalizing acc with
  | nil => simp [pairLoop]
  | cons t1 rest ih =>
    rw [pairLoop, List.foldl_cons]
    rw [show (List.foldl (fun a t1 => innerLoop g1 t1 ts2 a) (innerLoop g1 t1 ts2 acc) rest) =
      pairLoop g1 rest ts2 (innerLoop g1 t1 ts2 acc) from rfl]
    rw [ih, innerLoop_groups]
    constructor
    · rintro ((h | ⟨hk, t2, hm2, hc, hne⟩) | ⟨hk, t1', hm1, t2, hm2, hc, hne⟩)
      · exact Or.inl h
      · exact Or.inr ⟨hk, t1, List.mem_cons_self _ _, t2, hm2, hc, hne⟩
      · exact Or.inr ⟨hk, t1', List.mem_cons_of_mem _ hm1, t2, hm2, hc, hne⟩
    · rintro (h | ⟨hk, t1', hm1, t2, hm2, hc, hne⟩)
      · exact Or.inl (Or.inl h)
      · rcases List.mem_cons.mp hm1 with hm | hm
        · subst hm
          exact Or.inl (Or.inr ⟨hk, t2, hm2, hc, hne⟩)
        · exact Or.inr ⟨hk, t1', hm, t2, hm2, hc, hne⟩

theorem pairLoop_keys (g1 : Nat) (ts1 ts2 : List Term) (acc : Groups × Finset Term) :
    ∀ k ∈ keysOf (pairLoop g1 ts1 ts2 acc).1, k ∈ keysOf acc.1 ∨ k = g1 := by
  induction ts1 generalizing acc with
  | nil => intro k hk; exact Or.inl hk
  | cons t1 rest ih =>
    intro k hk
    rw [pairLoop, List.foldl_cons] at hk
    rcases ih (innerLoop g1 t1 ts2 acc) k hk with h | h
    · exact innerLoop_keys g1 t1 ts2 acc k h
    · exact Or.inr h

theorem pairLoop_nodup (g1 : Nat) (ts1 ts2 : List Term) (acc : Groups × Finset Term)
    (h : (keysOf acc.1).Nodup) : (keysOf (pairLoop g1 ts1 ts2 acc).1).Nodup := by
  induction ts1 generalizing acc with
  | nil => exact h
  | cons t1 rest ih =>
    rw [pairLoop, List.foldl_cons]
    exact ih _ (innerLoop_nodup g1 t1 ts2 acc h)

theorem pairLoop_vals_ne (g1 : Nat) (ts1 ts2 : List Term) (acc : Groups × Finset Term)
    (h : ∀ p ∈ acc.1, p.2 ≠ []) : ∀ p ∈ (pairLoop g1 ts1 ts2 acc).1, p.2 ≠ [] := by
  induction ts1 generalizing acc with
  | nil => exact h
  | cons t1 rest ih =>
    rw [pairLoop, List.foldl_cons]
    exact ih _ (innerLoop_vals_ne g1 t1 ts2 acc h)

/-! #### `roundFold` characterization -/

theorem pairsFold_used (gs : Groups) (P : List (Nat × Nat)) (acc : Groups × Finset Term)
    (u : Term) :
    u ∈ (P.foldl (fun a p => pairLoop p.1 (getGroup gs p.1) (getGroup gs p.2) a) acc).2 ↔
      u ∈ acc.2 ∨ ∃ p ∈ P, ∃ t1 ∈ getGroup gs p.1, ∃ t2 ∈ getGroup gs p.2,
        truthyP t1 t2 ∧ (u = t1 ∨ u = t2) := by
  induction P generalizing acc with
  | nil => simp
  | cons p rest ih =>
    rw [List.foldl_cons, ih, pairLoop_used]
    constructor
    · rintro ((h | ⟨t1, hm1, t2, hm2, ht, hu⟩) | ⟨p', hmp, t1, hm1, t2, hm2, ht, hu⟩)
      · exact Or.inl h
      · exact Or.inr ⟨p, List.mem_cons_self _ _, t1, hm1, t2, hm2, ht, hu⟩
      · exact Or.inr ⟨p', List.mem_cons_of_mem _ hmp, t1, hm1, t2, hm2, ht, hu⟩
    · rintro (h | ⟨p', hmp, t1, hm1, t2, hm2, ht, hu⟩)
      · exact Or.inl (Or.inl h)
      · rcases List.mem_cons.mp hmp with hm | hm
        · subst hm
          exact Or.inl (Or.inr ⟨t1, hm1, t2, hm2, ht, hu⟩)
        · exact Or.inr ⟨p', hm, t1, hm1, t2, hm2, ht, hu⟩

theorem pairsFold_groups (gs : Groups) (P : List (Nat × Nat)) (acc : Groups × Finset Term)
    (k : Nat) (c : Term) :
    c ∈ getGroup (P.foldl (fun a p => pairLoop p.1 (getGroup gs p.1) (getGroup gs p.2) a) acc).1 k ↔
      c ∈ getGroup acc.1 k ∨ ∃ p ∈ P, p.1 = k ∧ ∃ t1 ∈ getGroup gs p.1,
        ∃ t2 ∈ getGroup gs p.2, combine_terms t1 t2 = some c ∧ c ≠ [] := by
  induction P generalizing acc with
  | nil => simp
  | cons p rest ih =>
    rw [List.foldl_cons, ih, pairLoop_groups]
    constructor
    · rintro ((h | ⟨hk, t1, hm1, t2, hm2, hc, hne⟩) | ⟨p', hmp, hk, t1, hm1, t2, hm2, hc, hne⟩)
      · exact Or.inl h
      · exact Or.inr ⟨p, List.mem_cons_self _ _, hk.symm, t1, hm1, t2, hm2, hc, hne⟩
      · exact Or.inr ⟨p', List.mem_cons_of_mem _ hmp, hk, t1, hm1, t2, hm2, hc, hne⟩
    · rintro (h | ⟨p', hmp, hk, t1, hm1, t2, hm2, hc, hne⟩)
      · exact Or.inl (Or.inl h)
      · rcases List.mem_cons.mp hmp with hm | hm
        · subst hm
          exact Or.inl (Or.inr ⟨hk.symm, t1, hm1, t2, hm2, hc, hne⟩)
        · exact Or.inr ⟨p', hm, hk, t1, hm1, t2, hm2, hc, hne⟩

theorem pairsFold_keys (gs : Groups) (P : List (Nat × Nat)) (acc : Groups × Finset Term) :
    ∀ k ∈ keysOf (P.foldl (fun a p => pairLoop p.1 (getGroup gs p.1) (getGroup gs p.2) a) acc).1,
      k ∈ keysOf acc.1 ∨ ∃ p ∈ P, p.1 = k := by
  induction P generalizing acc with
  | nil => intro k hk; exact Or.inl hk
  | cons p rest ih =>
    intro k hk
    rw [List.foldl_cons] at hk
    rcases ih _ k hk with h | ⟨p', hmp, hk'⟩
    · rcases pairLoop_keys p.1 (getGroup gs p.1) (getGroup gs p.2) acc k h with h' | h'
      · exact Or.inl h'
      · exact Or.inr ⟨p, List.mem_cons_self _ _, h'.symm⟩
    · exact Or.inr ⟨p', List.mem_cons_of_mem _ hmp, hk'⟩

theorem pairsFold_nodup (gs : Groups) (P : List (Nat × Nat)) (acc : Groups × Finset Term)
    (h : (keysOf acc.1).Nodup) :
    (keysOf (P.foldl (fun a p => pairLoop p.1 (getGroup gs p.1) (getGroup gs p.2) a) acc).1).Nodup := by
  induction P generalizing acc with
  | nil => exact h
  | cons p rest ih =>
    rw [List.foldl_cons]
    exact ih _ (pairLoop_nodup _ _ _ _ h)

theorem pairsFold_vals_ne (gs : Groups) (P : List (Nat × Nat)) (acc : Groups × Finset Term)
    (h : ∀ p ∈ acc.1, p.2 ≠ []) :
    ∀ q ∈ (P.foldl (fun a p => pairLoop p.1 (getGroup gs p.1) (getGroup gs p.2) a) acc).1,
      q.2 ≠ [] := by
  induction P generalizing acc with
  | nil => exact h
  | cons p rest ih =>
    rw [List.foldl_cons]
    exact ih _ (pairLoop_vals_ne _ _ _ _ h)

theorem roundFold_used (gs : Groups) (u : Term) :
    u ∈ (roundFold gs).2 ↔
      ∃ p ∈ pairsOf gs, ∃ t1 ∈ getGroup gs p.1, ∃ t2 ∈ getGroup gs p.2,
        truthyP t1 t2 ∧ (u = t1 ∨ u = t2) := by
  rw [roundFold, pairsFold_used]
  simp

theorem roundFold_groups (gs : Groups) (k : Nat) (c : Term) :
    c ∈ getGroup (roundFold gs).1 k ↔
      ∃ p ∈ pairsOf gs, p.1 = k ∧ ∃ t1 ∈ getGroup gs p.1, ∃ t2 ∈ getGroup gs p.2,
        combine_terms t1 t2 = some c ∧ c ≠ [] := by
  rw [roundFold, pairsFold_groups]
  simp [getGroup]

theorem roundFold_keys (gs : Groups) :
    ∀ k ∈ keysOf (roundFold gs).1, ∃ p ∈ pairsOf gs, p.1 = k := by
  intro k hk
  rw [roundFold] at hk
  rcases pairsFold_keys gs (pairsOf gs) ([], ∅) k hk with h | h
  · simp [keysOf] at h
  · exact h

theorem roundFold_nodup (gs : Groups) : (keysOf (roundFold gs).1).Nodup := by
  rw [roundFold]
  exact pairsFold_nodup gs _ _ (by simp [keysOf])

theorem roundFold_vals_ne (gs : Groups) : ∀ q ∈ (roundFold gs).1, q.2 ≠ [] := by
  rw [roundFold]
  exact pairsFold_vals_ne gs _ _ (by simp)

/-! ### Termination: the number of keys strictly decreases each round -/

theorem roundFold_length_lt (gs : Groups) (hne : gs ≠ []) :
    (roundFold gs).1.length < gs.length := by
  have hnd : (keysOf (roundFold gs).1).Nodup := roundFold_nodup gs
  have hsub : keysOf (roundFold gs).1 ⊆ (pairsOf gs).map Prod.fst := by
    intro k hk
    obtain ⟨p, hmp, hp⟩ := roundFold_keys gs k hk
    exact List.mem_map.mpr ⟨p, hmp, hp⟩
  have hle : (keysOf (roundFold gs).1).length ≤ ((pairsOf gs).map Prod.fst).length :=
    (hnd.subperm hsub).length_le
  have h1 : (keysOf (roundFold gs).1).length = (roundFold gs).1.length := by
    simp [keysOf]
  have h2 : ((pairsOf gs).map Prod.fst).length = (pairsOf gs).length := by simp
  have h3 : (pairsOf gs).length ≤ gs.length - 1 := by
    rw [pairsOf]
    have hk : (sortKeys (keysOf gs)).length = gs.length := by
      rw [(sortKeys_perm (keysOf gs)).length_eq]
      simp [keysOf]
    rw [List.length_zip, List.length_tail, hk]
    omega
  have h4 : 1 ≤ gs.length := by
    cases gs with
    | nil => exact absurd rfl hne
    | cons p rest => simp
  omega

theorem step_groups_length_lt (s : MinState) (hne : s.groups ≠ []) :
    (step s).groups.length < s.groups.length :=
  roundFold_length_lt s.groups hne

theorem minimizeLoop_groups_nil (n : Nat) (s : MinState) (h : s.groups.length ≤ n) :
    (minimizeLoop n s).groups = [] := by
  induction n generalizing s with
  | zero =>
    rw [minimizeLoop]
    exact List.eq_nil_of_length_eq_zero (by omega)
  | succ n ih =>
    rw [minimizeLoop]
    by_cases he : s.groups.isEmpty
    · rw [if_pos he]
      exact List.isEmpty_iff.mp he
    · rw [if_neg he]
      have hne : s.groups ≠ [] := fun hh => he (by rw [hh]; rfl)
      exact ih (step s) (by have := step_groups_length_lt s hne; omega)

theorem roundCount_le (n : Nat) (s : MinState) : roundCount n s ≤ s.groups.length := by
  induction n generalizing s with
  | zero => rw [roundCount]; omega
  | succ n ih =>
    rw [roundCount]
    by_cases he : s.groups.isEmpty
    · rw [if_pos he]; omega
    · rw [if_neg he]
      have hne : s.groups ≠ [] := fun hh => he (by rw [hh]; rfl)
      have := step_groups_length_lt s hne
      have := ih (step s)
      omega

/-- The initial groups dict has at most `numVars + 1` keys: each key is a
population count of an input minterm of length `numVars`. -/
theorem group_by_ones_length_le (l : List Term) (n : Nat)
    (hlen : ∀ m ∈ l, m.length = n) : (group_by_ones l).length ≤ n + 1 := by
  have hnd := group_by_ones_nodup l
  have hsub : keysOf (group_by_ones l) ⊆ List.range (n + 1) := by
    intro k hk
    obtain ⟨t, hmem, hpop⟩ := (mem_keysOf_group_by_ones l k).mp hk
    rw [List.mem_range]
    have h1 : popcount t ≤ t.length := List.count_le_length '1' t
    have h2 : t.length = n := hlen t hmem
    omega
  have hle := (hnd.subperm hsub).length_le
  rw [List.length_range] at hle
  have : (keysOf (group_by_ones l)).length = (group_by_ones l).length := by simp [keysOf]
  omega

/-! ### The loop invariant -/

/-- The state at the start of round `n` (0-based) of the loop of `minimize`. -/
def stateAt (minterms : List Term) : Nat → MinState
  | 0 => initState minterms
  | n + 1 => step (stateAt minterms n)

theorem isBinary_alphaOk {t : Term} (h : isBinary t) : alphaOk t := by
  intro c hc
  rcases h c hc with h' | h'
  · exact Or.inl h'
  · exact Or.inr (Or.inl h')

/-- Every bucket of the next generation comes from a successful truthy
combination of two terms in adjacent buckets of the current generation. -/
theorem termsOf_roundFold_mem {gs : Groups} {t : Term}
    (h : t ∈ termsOf (roundFold gs).1) :
    ∃ p ∈ pairsOf gs, ∃ t1 ∈ getGroup gs p.1, ∃ t2 ∈ getGroup gs p.2,
      combine_terms t1 t2 = some t ∧ t ≠ [] := by
  obtain ⟨k, hk⟩ := mem_termsOf_exists (roundFold_nodup gs) h
  obtain ⟨p, hmp, _, t1, hm1, t2, hm2, hc, hne⟩ := (roundFold_groups gs k t).mp hk
  exact ⟨p, hmp, t1, hm1, t2, hm2, hc, hne⟩

theorem pairsOf_lt {gs : Groups} (hnd : (keysOf gs).Nodup) :
    ∀ p ∈ pairsOf gs, p.1 < p.2 := by
  rw [pairsOf]
  exact sortKeys_zip_lt hnd

/-- Alphabet preservation: a combination of terms over {'0','1','-'} stays
over {'0','1','-'}. -/
theorem combine_alpha {a b c : Term} (hlen : a.length = b.length)
    (h : combine_terms a b = some c) (ha : alphaOk a) : alphaOk c := by
  rcases combine_cases hlen h with ⟨_, hc⟩ | ⟨p, x, y, q, hav, _, _, hc⟩
  · rw [hc]; exact ha
  · subst hc
    intro ch hch
    rcases List.mem_append.mp hch with hch | hch
    · exact ha ch (by rw [hav]; exact List.mem_append.mpr (Or.inl hch))
    · rcases List.mem_cons.mp hch with hch | hch
      · rw [hch]; exact Or.inr (Or.inr rfl)
      · exact ha ch (by
          rw [hav]
          exact List.mem_append.mpr (Or.inr (List.mem_cons_of_mem _ hch)))

/-- The invariant carried around the loop of `minimize`: `unchecked` mirrors
the groups dict; keys are unique; all live terms have the input length, stay
over {'0','1','-'}, sit in the bucket of their population count; every input
minterm is subsumed by a live or checked term; and live or checked terms
subsume only input minterms. -/
structure Inv (input : List Term) (lv : Nat) (s : MinState) : Prop where
  unchecked_eq : s.unchecked = (termsOf s.groups).toFinset
  keys_nodup : (keysOf s.groups).Nodup
  len_groups : ∀ t ∈ termsOf s.groups, t.length = lv
  len_checked : ∀ t ∈ s.checked, t.length = lv
  alpha_groups : ∀ t ∈ termsOf s.groups, alphaOk t
  alpha_checked : ∀ t ∈ s.checked, alphaOk t
  pop_key : ∀ k : Nat, ∀ t ∈ getGroup s.groups k, popcount t = k
  covers : ∀ m ∈ input, (∃ t ∈ s.checked, subsumes t m = true) ∨
    (∃ t ∈ termsOf s.groups, subsumes t m = true)
  sound_groups : ∀ t ∈ termsOf s.groups, ∀ m : Term, isBinary m →
    subsumes t m = true → m ∈ input
  sound_checked : ∀ t ∈ s.checked, ∀ m : Term, isBinary m →
    subsumes t m = true → m ∈ input

theorem inv_init (input : List Term) (lv : Nat)
    (hlen : ∀ m ∈ input, m.length = lv) (hbin : ∀ m ∈ input, isBinary m) :
    Inv input lv (initState input) := by
  refine ⟨?_, group_by_ones_nodup input, ?_, ?_, ?_, ?_, ?_, ?_, ?_, ?_⟩
  · apply Finset.ext
    intro t
    simp only [initState]
    rw [List.mem_toFinset, List.mem_toFinset, mem_termsOf_group_by_ones]
  · intro t ht
    exact hlen t ((mem_termsOf_group_by_ones input t).mp ht)
  · intro t ht; simp [initState] at ht
  · intro t ht
    exact isBinary_alphaOk (hbin t ((mem_termsOf_group_by_ones input t).mp ht))
  · intro t ht; simp [initState] at ht
  · intro k t ht
    exact ((mem_getGroup_group_by_ones input k t).mp ht).2
  · intro m hm
    exact Or.inr ⟨m, (mem_termsOf_group_by_ones input m).mpr hm, subsumes_refl m⟩
  · intro t ht m _ hs
    have htm := subsumes_binary_eq (hbin t ((mem_termsOf_group_by_ones input t).mp ht)) hs
    exact htm ▸ (mem_termsOf_group_by_ones input t).mp ht
  · intro t ht; simp [initState] at ht

theorem inv_step {input : List Term} {lv : Nat} {s : MinState}
    (h : Inv input lv s) : Inv input lv (step s) := by
  have hlen12 : ∀ k : Nat, ∀ t ∈ getGroup s.groups k, t.length = lv :=
    fun k t ht => h.len_groups t (mem_termsOf_of_getGroup ht)
  refine ⟨rfl, roundFold_nodup s.groups, ?_, ?_, ?_, ?_, ?_, ?_, ?_, ?_⟩
  · -- lengths of the next generation
    intro t ht
    obtain ⟨p, _, t1, hm1, t2, hm2, hc, _⟩ := termsOf_roundFold_mem ht
    rw [combine_length hc, hlen12 p.1 t1 hm1, hlen12 p.2 t2 hm2]
    omega
  · -- lengths of the checked set
    intro t ht
    rcases Finset.mem_union.mp ht with ht | ht
    · exact h.len_checked t ht
    · have := Finset.mem_sdiff.mp ht
      rw [h.unchecked_eq, List.mem_toFinset] at this
      exact h.len_groups t this.1
  · -- alphabet of the next generation
    intro t ht
    obtain ⟨p, _, t1, hm1, t2, hm2, hc, _⟩ := termsOf_roundFold_mem ht
    have hl : t1.length = t2.length := by rw [hlen12 p.1 t1 hm1, hlen12 p.2 t2 hm2]
    exact combine_alpha hl hc (h.alpha_groups t1 (mem_termsOf_of_getGroup hm1))
  · -- alphabet of the checked set
    intro t ht
    rcases Finset.mem_union.mp ht with ht | ht
    · exact h.alpha_checked t ht
    · have := Finset.mem_sdiff.mp ht
      rw [h.unchecked_eq, List.mem_toFinset] at this
      exact h.alpha_groups t this.1
  · -- population count matches the bucket key
    intro k t ht
    obtain ⟨p, hmp, hpk, t1, hm1, t2, hm2, hc, _⟩ :=
      (roundFold_groups s.groups k t).mp ht
    have hplt := pairsOf_lt h.keys_nodup p hmp
    have hp1 : popcount t1 = p.1 := h.pop_key p.1 t1 hm1
    have hp2 : popcount t2 = p.2 := h.pop_key p.2 t2 hm2
    have hl : t1.length = t2.length := by rw [hlen12 p.1 t1 hm1, hlen12 p.2 t2 hm2]
    rcases combine_cases hl hc with ⟨hb, _⟩ | ⟨p0, x, y, q, ha1, ha2, hxy, hct⟩
    · rw [hb] at hp2
      omega
    · subst ha1; subst ha2; subst hct
      rw [combine_pop_eq] at hp1 hp2 ⊢
      have hd : (if ('-' : Char) = '1' then 1 else 0) = 0 := by decide
      rw [hd]
      by_cases hx : x = '1' <;> by_cases hy : y = '1'
      · exact absurd (hx.trans hy.symm) hxy
      · rw [if_pos hx] at hp1; rw [if_neg hy] at hp2; omega
      · rw [if_neg hx] at hp1; rw [if_pos hy] at hp2; omega
      · rw [if_neg hx] at hp1; rw [if_neg hy] at hp2; omega
  · -- every input minterm is still covered
    intro m hm
    rcases h.covers m hm with ⟨t, ht, hs⟩ | ⟨t, ht, hs⟩
    · exact Or.inl ⟨t, Finset.mem_union_left _ ht, hs⟩
    · by_cases hu : t ∈ (roundFold s.groups).2
      · obtain ⟨p, hmp, t1, hm1, t2, hm2, ⟨c, hc, hne⟩, hu12⟩ :=
          (roundFold_used s.groups t).mp hu
        have hcg : c ∈ getGroup (roundFold s.groups).1 p.1 :=
          (roundFold_groups s.groups p.1 c).mpr ⟨p, hmp, rfl, t1, hm1, t2, hm2, hc, hne⟩
        have hl : t1.length = t2.length := by rw [hlen12 p.1 t1 hm1, hlen12 p.2 t2 hm2]
        have hsub := combine_subsumes hl hc
        have hct : subsumes c t = true := by
          rcases hu12 with hu' | hu'
          · rw [hu']; exact hsub.1
          · rw [hu']; exact hsub.2
        exact Or.inr ⟨c, mem_termsOf_of_getGroup hcg, subsumes_trans hct hs⟩
      · refine Or.inl ⟨t, Finset.mem_union_right _ ?_, hs⟩
        rw [Finset.mem_sdiff, h.unchecked_eq, List.mem_toFinset]
        exact ⟨ht, hu⟩
  · -- soundness of the next generation
    intro t ht m hbm hs
    obtain ⟨p, _, t1, hm1, t2, hm2, hc, _⟩ := termsOf_roundFold_mem ht
    have hl : t1.length = t2.length := by rw [hlen12 p.1 t1 hm1, hlen12 p.2 t2 hm2]
    rcases combine_sound hl hc (h.alpha_groups t1 (mem_termsOf_of_getGroup hm1))
        (h.alpha_groups t2 (mem_termsOf_of_getGroup hm2)) hbm hs with h' | h'
    · exact h.sound_groups t1 (mem_termsOf_of_getGroup hm1) m hbm h'
    · exact h.sound_groups t2 (mem_termsOf_of_getGroup hm2) m hbm h'
  · -- soundness of the checked set
    intro t ht m hbm hs
    rcases Finset.mem_union.mp ht with ht | ht
    · exact h.sound_checked t ht m hbm hs
    · have := Finset.mem_sdiff.mp ht
      rw [h.unchecked_eq, List.mem_toFinset] at this
      exact h.sound_groups t this.1 m hbm hs

theorem inv_stateAt (input : List Term) (lv : Nat)
    (hlen : ∀ m ∈ input, m.length = lv) (hbin : ∀ m ∈ input, isBinary m) :
    ∀ n, Inv input lv (stateAt input n) := by
  intro n
  induction n with
  | zero => exact inv_init input lv hlen hbin
  | succ n ih => exact inv_step ih

theorem inv_minimizeLoop {input : List Term} {lv : Nat} (n : Nat) {s : MinState}
    (h : Inv input lv s) : Inv input lv (minimizeLoop n s) := by
  induction n generalizing s with
  | zero => exact h
  | succ n ih =>
    rw [minimizeLoop]
    by_cases he : s.groups.isEmpty
    · rw [if_pos he]; exact h
    · rw [if_neg he]; exact ih (inv_step h)

/-! ### Determinism: the computation only depends on the input as a set -/

/-- Structural facts used by the determinism proof. -/
def StInv (s : MinState) : Prop :=
  (keysOf s.groups).Nodup ∧ ∀ p ∈ s.groups, p.2 ≠ []

theorem stInv_init (l : List Term) : StInv (initState l) :=
  ⟨group_by_ones_nodup l, group_by_ones_vals_ne l⟩

theorem stInv_step (s : MinState) : StInv (step s) :=
  ⟨roundFold_nodup s.groups, roundFold_vals_ne s.groups⟩

theorem mem_keysOf_iff {gs : Groups} (hv : ∀ p ∈ gs, p.2 ≠ []) (k : Nat) :
    k ∈ keysOf gs ↔ getGroup gs k ≠ [] := by
  constructor
  · exact getGroup_ne_nil_of_mem_keys hv
  · intro h
    by_contra hm
    exact h (getGroup_eq_nil_of_not_mem hm)

theorem ne_nil_congr {α : Type} {l l' : List α} (h : ∀ x, x ∈ l ↔ x ∈ l') :
    l ≠ [] ↔ l' ≠ [] := by
  constructor
  · intro hne hl'
    obtain ⟨x, hx⟩ := List.exists_mem_of_ne_nil l hne
    subst hl'
    exact absurd ((h x).mp hx) (List.not_mem_nil x)
  · intro hne hl
    obtain ⟨x, hx⟩ := List.exists_mem_of_ne_nil l' hne
    subst hl
    exact absurd ((h x).mpr hx) (List.not_mem_nil x)

/-- Two loop states that agree as sets (same keys, same buckets, same
`unchecked` and `checked` sets). -/
structure Rel (s s' : MinState) : Prop where
  keys_eq : (keysOf s.groups).toFinset = (keysOf s'.groups).toFinset
  groups_eq : ∀ k, (getGroup s.groups k).toFinset = (getGroup s'.groups k).toFinset
  unchecked_eq : s.unchecked = s'.unchecked
  checked_eq : s.checked = s'.checked

theorem sortKeys_congr {gs gs' : Groups} (h1 : (keysOf gs).Nodup)
    (h2 : (keysOf gs').Nodup) (hk : (keysOf gs).toFinset = (keysOf gs').toFinset) :
    sortKeys (keysOf gs) = sortKeys (keysOf gs') := by
  have hperm := List.perm_of_nodup_nodup_toFinset_eq h1 h2 hk
  have hp : List.Perm (sortKeys (keysOf gs)) (sortKeys (keysOf gs')) :=
    (sortKeys_perm _).trans (hperm.trans (sortKeys_perm _).symm)
  exact List.eq_of_perm_of_sorted hp (sortKeys_sorted _) (sortKeys_sorted _)

theorem rel_groups_nil {s s' : MinState} (r : Rel s s') :
    s.groups = [] ↔ s'.groups = [] := by
  have h1 : ∀ gs : Groups, gs = [] ↔ keysOf gs = [] := by
    intro gs
    rw [keysOf, List.map_eq_nil]
  rw [h1, h1]
  rw [← List.toFinset_eq_empty_iff, ← List.toFinset_eq_empty_iff, r.keys_eq]

theorem rel_step {s s' : MinState} (hst : StInv s) (hst' : StInv s') (r : Rel s s') :
    Rel (step s) (step s') := by
  have hpairs : pairsOf s.groups = pairsOf s'.groups := by
    rw [pairsOf, pairsOf, sortKeys_congr hst.1 hst'.1 r.keys_eq]
  have hgmem : ∀ (k : Nat) (t : Term), t ∈ getGroup s.groups k ↔ t ∈ getGroup s'.groups k := by
    intro k t
    rw [← List.mem_toFinset, r.groups_eq k, List.mem_toFinset]
  have hused : (roundFold s.groups).2 = (roundFold s'.groups).2 := by
    apply Finset.ext
    intro u
    rw [roundFold_used, roundFold_used, hpairs]
    constructor <;> rintro ⟨p, hmp, t1, hm1, t2, hm2, ht, hu⟩
    · exact ⟨p, hmp, t1, (hgmem _ _).mp hm1, t2, (hgmem _ _).mp hm2, ht, hu⟩
    · exact ⟨p, hmp, t1, (hgmem _ _).mpr hm1, t2, (hgmem _ _).mpr hm2, ht, hu⟩
  have hngmem : ∀ (k : Nat) (c : Term),
      c ∈ getGroup (roundFold s.groups).1 k ↔ c ∈ getGroup (roundFold s'.groups).1 k := by
    intro k c
    rw [roundFold_groups, roundFold_groups, hpairs]
    constructor <;> rintro ⟨p, hmp, hpk, t1, hm1, t2, hm2, hc, hne⟩
    · exact ⟨p, hmp, hpk, t1, (hgmem _ _).mp hm1, t2, (hgmem _ _).mp hm2, hc, hne⟩
    · exact ⟨p, hmp, hpk, t1, (hgmem _ _).mpr hm1, t2, (hgmem _ _).mpr hm2, hc, hne⟩
  refine ⟨?_, ?_, ?_, ?_⟩
  · apply Finset.ext
    intro k
    rw [List.mem_toFinset, List.mem_toFinset]
    show k ∈ keysOf (roundFold s.groups).1 ↔ k ∈ keysOf (roundFold s'.groups).1
    rw [mem_keysOf_iff (roundFold_vals_ne s.groups) k,
      mem_keysOf_iff (roundFold_vals_ne s'.groups) k]
    exact ne_nil_congr (hngmem k)
  · intro k
    apply Finset.ext
    intro c
    rw [List.mem_toFinset, List.mem_toFinset]
    show c ∈ getGroup (roundFold s.groups).1 k ↔ c ∈ getGroup (roundFold s'.groups).1 k
    exact hngmem k c
  · apply Finset.ext
    intro t
    show t ∈ (termsOf (roundFold s.groups).1).toFinset ↔
      t ∈ (termsOf (roundFold s'.groups).1).toFinset
    rw [List.mem_toFinset, List.mem_toFinset,
      mem_termsOf_iff (roundFold_nodup s.groups) t,
      mem_termsOf_iff (roundFold_nodup s'.groups) t]
    constructor <;> rintro ⟨k, hk⟩
    · exact ⟨k, (hngmem k t).mp hk⟩
    · exact ⟨k, (hngmem k t).mpr hk⟩
  · show s.checked ∪ (s.unchecked \ (roundFold s.groups).2) =
      s'.checked ∪ (s'.unchecked \ (roundFold s'.groups).2)
    rw [r.checked_eq, r.unchecked_eq, hused]

theorem loop_congr (n : Nat) {s s' : MinState} (hst : StInv s) (hst' : StInv s')
    (r : Rel s s') : (minimizeLoop n s).checked = (minimizeLoop n s').checked := by
  induction n generalizing s s' with
  | zero => exact r.checked_eq
  | succ n ih =>
    rw [minimizeLoop, minimizeLoop]
    by_cases he : s.groups.isEmpty
    · have he' : s'.groups.isEmpty = true := by
        rw [List.isEmpty_iff] at he ⊢
        exact (rel_groups_nil r).mp he
      rw [if_pos he, if_pos he']
      exact r.checked_eq
    · have he' : ¬s'.groups.isEmpty = true := by
        rw [List.isEmpty_iff] at he ⊢
        exact fun h => he ((rel_groups_nil r).mpr h)
      rw [if_neg he, if_neg he']
      exact ih (stInv_step s) (stInv_step s') (rel_step hst hst' r)

theorem rel_init {l1 l2 : List Term} (h : l1.toFinset = l2.toFinset) :
    Rel (initState l1) (initState l2) := by
  have hmem : ∀ t : Term, t ∈ l1 ↔ t ∈ l2 := by
    intro t
    rw [← List.mem_toFinset, h, List.mem_toFinset]
  refine ⟨?_, ?_, ?_, rfl⟩
  · apply Finset.ext
    intro k
    rw [List.mem_toFinset, List.mem_toFinset]
    show k ∈ keysOf (group_by_ones l1) ↔ k ∈ keysOf (group_by_ones l2)
    rw [mem_keysOf_group_by_ones, mem_keysOf_group_by_ones]
    constructor <;> rintro ⟨t, hm, hp⟩
    · exact ⟨t, (hmem t).mp hm, hp⟩
    · exact ⟨t, (hmem t).mpr hm, hp⟩
  · intro k
    apply Finset.ext
    intro t
    rw [List.mem_toFinset, List.mem_toFinset]
    show t ∈ getGroup (group_by_ones l1) k ↔ t ∈ getGroup (group_by_ones l2) k
    rw [mem_getGroup_group_by_ones, mem_getGroup_group_by_ones, hmem t]
  · exact h

theorem group_by_ones_length_congr {l1 l2 : List Term} (h : l1.toFinset = l2.toFinset) :
    (group_by_ones l1).length = (group_by_ones l2).length := by
  have hk : (keysOf (group_by_ones l1)).toFinset = (keysOf (group_by_ones l2)).toFinset :=
    (rel_init h).keys_eq
  have h1 : ∀ l : List Term, (group_by_ones l).length = (keysOf (group_by_ones l)).toFinset.card := by
    intro l
    rw [List.toFinset_card_of_nodup (group_by_ones_nodup l)]
    simp [keysOf]
  rw [h1, h1, hk]

/-! ### The claims -/

/-- Claim C1: for every finite input of equal-length binary minterms, every
input minterm is subsumed by at least one term of the set returned by
`minimize` (a term `t` subsumes minterm `m` iff every non-'-' position of
`t` equals the corresponding position of `m`). -/
theorem C1_coverage (minterms : List Term) (lv : Nat)
    (hlen : ∀ m ∈ minterms, m.length = lv) (hbin : ∀ m ∈ minterms, isBinary m)
    (m : Term) (hm : m ∈ minterms) :
    ∃ t ∈ minimize minterms, subsumes t m = true := by
  have hinv := inv_minimizeLoop (group_by_ones minterms).length
    (inv_init minterms lv hlen hbin)
  have hnil : (minimizeLoop (group_by_ones minterms).length (initState minterms)).groups = [] :=
    minimizeLoop_groups_nil _ _ (le_refl _)
  rcases hinv.covers m hm with ⟨t, ht, hs⟩ | ⟨t, ht, hs⟩
  · exact ⟨t, ht, hs⟩
  · rw [hnil] at ht
    simp [termsOf] at ht

/-- Witness for C1 at a concrete input. -/
theorem C1_coverage_witness :
    ∃ t ∈ minimize [['0','1']], subsumes t ['0','1'] = true :=
  C1_coverage [['0','1']] 2 (by decide) (by decide) ['0','1'] (by decide)

/-- Claim C2: `minimize {"0001", "0011", "0111"}` returns exactly
`{"00-1", "0-11"}`. -/
theorem C2_example_result :
    minimize [['0','0','0','1'], ['0','0','1','1'], ['0','1','1','1']] =
      {['0','0','-','1'], ['0','-','1','1']} := by decide

/-- Claim C3: for equal-length terms differing in exactly one position `i`,
`combine_terms a b` is `a` with position `i` replaced by '-'; the result has
the inputs' length and differs from both only at position `i`. -/
theorem C3_single_diff (a b : Term) (i : Nat) (hlen : a.length = b.length)
    (hne : a[i]? ≠ b[i]?) (hsame : ∀ j, j ≠ i → a[j]? = b[j]?) :
    combine_terms a b = some (a.set i '-') ∧
    (a.set i '-').length = a.length ∧
    ∀ j, j ≠ i → (a.set i '-')[j]? = a[j]? ∧ (a.set i '-')[j]? = b[j]? := by
  induction a generalizing b i with
  | nil =>
    cases b with
    | nil => simp at hne
    | cons y ys => simp at hlen
  | cons x xs ih =>
    cases b with
    | nil => simp at hlen
    | cons y ys =>
      cases i with
      | zero =>
        have hxy : x ≠ y := by
          intro h
          exact hne (by simp [h])
        have hxs : xs = ys := by
          apply List.ext_getElem?
          intro j
          have := hsame (j + 1) (by omega)
          simpa using this
        subst hxs
        refine ⟨?_, by simp, ?_⟩
        · have := @combine_one [] xs x y hxy
          simpa using this
        · intro j hj
          cases j with
          | zero => exact absurd rfl hj
          | succ j' => simp
      | succ i' =>
        have hxy : x = y := by
          have := hsame 0 (by omega)
          simpa using this
        subst hxy
        have hne' : xs[i']? ≠ ys[i']? := by
          intro h
          exact hne (by simpa using h)
        have hsame' : ∀ j, j ≠ i' → xs[j]? = ys[j]? := by
          intro j hj
          have := hsame (j + 1) (by omega)
          simpa using this
        obtain ⟨h1, h2, h3⟩ := ih ys i' (by simpa using hlen) hne' hsame'
        refine ⟨?_, by simpa using h2, ?_⟩
        · unfold combine_terms at h1 ⊢
          rw [List.zip_cons_cons]
          rw [show ((x :: xs).set (i' + 1) '-') = x :: xs.set i' '-' from rfl]
          simp [combineAux, h1]
        · intro j hj
          cases j with
          | zero => simp
          | succ j' =>
            have := h3 j' (by omega)
            simpa using this

/-- Witness for C3 at a concrete input. -/
theorem C3_single_diff_witness : combine_terms ['0','0'] ['0','1'] = some ['0','-'] := by
  have h := C3_single_diff ['0','0'] ['0','1'] 1 (by decide) (by decide)
    (by
      intro j hj
      match j with
      | 0 => rfl
      | 1 => exact absurd rfl hj
      | n + 2 => rfl)
  exact h.1

/-- Claim C4 is false as stated: two equal-length terms differing in zero
positions; `combine_terms` returns the common term, not `None`. -/
theorem C4_counterexample : combine_terms ['0','1'] ['0','1'] ≠ none := by decide

/-- Claim C4 (amended): for equal-length terms differing in two or more
positions, `combine_terms` returns `None`; but for terms differing in zero
positions it returns the common term itself, not `None`. -/
theorem C4_no_combination_amended (a b : Term) (hlen : a.length = b.length) :
    (2 ≤ countDiffs a b → combine_terms a b = none) ∧
    (countDiffs a b = 0 → combine_terms a b = some a) := by
  constructor
  · intro h2
    cases hc : combine_terms a b with
    | none => rfl
    | some c =>
      have := combine_some_diffs_le hlen hc
      omega
  · intro h0
    have hab := countDiffs_eq_zero hlen h0
    rw [hab]
    exact combine_self b

/-- Witness for the amended C4: both branches exercised at concrete inputs. -/
theorem C4_no_combination_amended_witness :
    combine_terms ['0','1'] ['1','0'] = none ∧
    combine_terms ['0','1'] ['0','1'] = some ['0','1'] :=
  ⟨(C4_no_combination_amended ['0','1'] ['1','0'] (by decide)).1 (by decide),
   (C4_no_combination_amended ['0','1'] ['0','1'] (by decide)).2 (by decide)⟩

/-- Claim C5 is false as stated: on unequal-length inputs `combine_terms`
does not fail with a length-mismatch error; the zip silently truncates and
a result is produced. -/
theorem C5_counterexample : combine_terms ['0','1'] ['0'] = some ['0'] := by decide

/-- Claim C5 (amended): `combine_terms` enforces no length precondition; it
silently truncates to the zipped common part, so every successful result has
the minimum of the two input lengths. -/
theorem C5_truncation_amended (a b c : Term) (h : combine_terms a b = some c) :
    c.length = min a.length b.length :=
  combine_length h

/-- Witness for the amended C5 at a concrete unequal-length input. -/
theorem C5_truncation_amended_witness :
    (['0'] : Term).length = min (['0','1'] : Term).length (['0'] : Term).length :=
  C5_truncation_amended ['0','1'] ['0'] ['0'] (by decide)

/-- Claim C6: at the start of every round, every term stored in the working
group map under key `k` has population count exactly `k`, and the grouping
coincides with partitioning the current generation by population count. -/
theorem C6_group_invariant (minterms : List Term) (lv : Nat)
    (hlen : ∀ m ∈ minterms, m.length = lv) (hbin : ∀ m ∈ minterms, isBinary m)
    (n : Nat) :
    (∀ k : Nat, ∀ t ∈ getGroup (stateAt minterms n).groups k, popcount t = k) ∧
    (∀ t ∈ termsOf (stateAt minterms n).groups,
      t ∈ getGroup (stateAt minterms n).groups (popcount t)) := by
  have hinv := inv_stateAt minterms lv hlen hbin n
  refine ⟨hinv.pop_key, ?_⟩
  intro t ht
  obtain ⟨k, hk⟩ := mem_termsOf_exists hinv.keys_nodup ht
  rw [hinv.pop_key k t hk]
  exact hk

/-- Witness for C6 at a concrete input and round. -/
theorem C6_group_invariant_witness : popcount ['0','1'] = 1 :=
  (C6_group_invariant [['0','1']] 2 (by decide) (by decide) 0).1 1 ['0','1'] (by decide)

/-- Claim C7: for equal-length binary minterms of length `numVars`, the
round loop terminates: it executes at most `numVars + 1` rounds whatever the
fuel, and `numVars + 1` rounds already reach the empty groups dict. -/
theorem C7_termination (minterms : List Term) (numVars : Nat)
    (hlen : ∀ m ∈ minterms, m.length = numVars)
    (hbin : ∀ m ∈ minterms, isBinary m) :
    (∀ fuel : Nat, roundCount fuel (initState minterms) ≤ numVars + 1) ∧
    (minimizeLoop (numVars + 1) (initState minterms)).groups = [] := by
  have hb : (initState minterms).groups.length ≤ numVars + 1 :=
    group_by_ones_length_le minterms numVars hlen
  constructor
  · intro fuel
    have := roundCount_le fuel (initState minterms)
    omega
  · exact minimizeLoop_groups_nil _ _ hb

/-- Witness for C7 at a concrete input. -/
theorem C7_termination_witness :
    roundCount 5 (initState [['0','1']]) ≤ 3 ∧
    (minimizeLoop 3 (initState [['0','1']])).groups = [] := by
  have h := C7_termination [['0','1']] 2 (by decide) (by decide)
  exact ⟨h.1 5, h.2⟩

/-- Claim C8: `minimize` is deterministic up to input order: two input lists
holding the same set of minterms (any order, with or without duplicates)
produce equal result sets. -/
theorem C8_determinism (l1 l2 : List Term) (h : l1.toFinset = l2.toFinset) :
    minimize l1 = minimize l2 := by
  rw [minimize, minimize, group_by_ones_length_congr h]
  exact loop_congr _ (stInv_init l1) (stInv_init l2) (rel_init h)

/-- Witness for C8: a permuted input with a duplicate. -/
theorem C8_determinism_witness :
    minimize [['0','1'], ['1','1'], ['0','1']] = minimize [['1','1'], ['0','1']] :=
  C8_determinism [['0','1'], ['1','1'], ['0','1']] [['1','1'], ['0','1']] (by decide)

/-- Claim C9 is false: there is no pair of equal-length terms over
{'0','1','-'} whose population counts differ by two or more on which
`combine_terms` succeeds: a single differing position moves the population
count by at most one. -/
theorem C9_counterexample :
    ¬∃ a b : Term, a.length = b.length ∧ alphaOk a ∧ alphaOk b ∧
      (popcount a + 2 ≤ popcount b ∨ popcount b + 2 ≤ popcount a) ∧
      combine_terms a b ≠ none := by
  rintro ⟨a, b, hlen, _, _, hgap, hne⟩
  cases hc : combine_terms a b with
  | none => exact hne hc
  | some c =>
    have := combine_pop_close hlen hc
    omega

/-- Claim C9 (amended): whenever `combine_terms` does not return `None` on
equal-length terms, the population counts differ by at most one, so no
successful combination crosses a population-count gap of two or more. -/
theorem C9_pop_gap_amended (a b : Term) (hlen : a.length = b.length)
    (h : combine_terms a b ≠ none) :
    popcount b ≤ popcount a + 1 ∧ popcount a ≤ popcount b + 1 := by
  cases hc : combine_terms a b with
  | none => exact absurd hc h
  | some c => exact combine_pop_close hlen hc

/-- Witness for the amended C9 at a concrete input. -/
theorem C9_pop_gap_amended_witness :
    popcount ['1'] ≤ popcount ['0'] + 1 ∧ popcount ['0'] ≤ popcount ['1'] + 1 :=
  C9_pop_gap_amended ['0'] ['1'] (by decide) (by decide)

/-- Claim C10: soundness of the output cover: every fully specified binary
string subsumed by a term returned by `minimize` is one of the input
minterms. -/
theorem C10_soundness (minterms : List Term) (lv : Nat)
    (hlen : ∀ m ∈ minterms, m.length = lv) (hbin : ∀ m ∈ minterms, isBinary m)
    (t : Term) (ht : t ∈ minimize minterms) (m : Term) (hm : isBinary m)
    (hs : subsumes t m = true) : m ∈ minterms := by
  have hinv := inv_minimizeLoop (group_by_ones minterms).length
    (inv_init minterms lv hlen hbin)
  exact hinv.sound_checked t ht m hm hs

/-- Witness for C10 at a concrete input: the result term "-1" subsumes the
binary string "01", which is indeed an input minterm. -/
theorem C10_soundness_witness : ['0','1'] ∈ [['0','1'], ['1','1']] :=
  C10_soundness [['0','1'], ['1','1']] 2 (by decide) (by decide)
    ['-','1'] (by decide) ['0','1'] (by decide) (by decide)

end QuinMc
